import Mathlib

/-!
Verification of the chapter segmentation engine of the AudioBookPython
repository (`app/services/epub_parser.py` and `app/services/epub_parser_spine.py`)
against its natural-language specification.

The Python sources are shallowly embedded as executable Lean definitions:

* Python strings become `String`/`List Char`, with Python's `str.strip`,
  `str.lower`, `str.count`, `str.split`, slicing and `re.sub(r'\s+', ' ', ·)`
  translated to the `py*` helpers below.
* The uses of `re.search`/`re.match` in the sources are translated through a
  small token-list matcher (`Tok`, `matchToks`); every pattern of the source
  is written down as its token list.
* The HTML node tree produced by BeautifulSoup (an external collaborator per
  the spec) is the inductive type `Node`; `get_text`, `find`, `find_all`,
  sibling walks and `decompose` are defined over it.
* Fresh `uuid.uuid4()` values are modelled by an explicit stream
  `ids : Nat → String` passed to the engine, and exceptions raised by the
  external markup parser are modelled by `Option` results.
-/

namespace EpubParser

/-! ## Python string primitives -/

/-- Python's whitespace class for `str.strip()` / `str.split()` / `\s`
(ASCII part): space, tab, newline, carriage return, vertical tab, form feed. -/
def isWs (c : Char) : Bool :=
  c = ' ' || c = '\t' || c = '\n' || c = '\r' || c = '\x0b' || c = '\x0c'

/-- Drop leading and trailing whitespace characters (Python `str.strip()`). -/
def stripChars (l : List Char) : List Char :=
  ((l.dropWhile isWs).reverse.dropWhile isWs).reverse

/-- Python `str.strip()` on `String`. -/
def pyStrip (s : String) : String := ⟨stripChars s.data⟩

/-- Python `str.strip('\n\r')`: drop only newline/CR characters at both ends
(used by the spine extractor on text nodes). -/
def isNR (c : Char) : Bool := c = '\n' || c = '\r'

def stripNRChars (l : List Char) : List Char :=
  ((l.dropWhile isNR).reverse.dropWhile isNR).reverse

def pyStripNR (s : String) : String := ⟨stripNRChars s.data⟩

-- `re.sub(r'\s+', ' ', ·)`: collapse every maximal whitespace run to one
-- space.  `collapseWs` emits a single space on meeting whitespace and hands the
-- rest of the run to `afterWsRun`, which discards further whitespace.
mutual

def collapseWs : List Char → List Char
  | [] => []
  | c :: rest =>
    if isWs c then ' ' :: afterWsRun rest
    else c :: collapseWs rest

def afterWsRun : List Char → List Char
  | [] => []
  | c :: rest =>
    if isWs c then afterWsRun rest
    else c :: collapseWs rest

end

/-- `re.sub(r'\s+', ' ', s)` on `String`. -/
def normalizeWs (s : String) : String := ⟨collapseWs s.data⟩

/-- Python `str.lower()` (ASCII case folding, as in `Char.toLower`). -/
def pyLower (s : String) : String := ⟨s.data.map Char.toLower⟩

/-- Python slicing `s[:n]` (by code points). -/
def pyTake (n : Nat) (s : String) : String := ⟨s.data.take n⟩

/-- Python `len(s)` (number of code points). -/
def pyLen (s : String) : Nat := s.data.length

/-- Does `pat` occur at the very start of `l`? -/
def startsWithChars : List Char → List Char → Bool
  | [], _ => true
  | _ :: _, [] => false
  | p :: ps, c :: cs => p = c && startsWithChars ps cs

/-- Does `pat` occur somewhere in `l` (Python `pat in s`)? -/
def containsChars (pat : List Char) : List Char → Bool
  | [] => startsWithChars pat []
  | c :: cs => startsWithChars pat (c :: cs) || containsChars pat cs

/-- Python `pat in s` on `String`. -/
def strContains (s pat : String) : Bool := containsChars pat.data s.data

/-- Python `s.count(pat)` for a non-empty pattern: the number of
non-overlapping occurrences, scanning left to right (greedy).  A positive
`skip` means the scanner is still inside an occurrence it has already
counted, so it must pass `skip` more characters before testing again —
exactly the jump `str.count` makes past each match. -/
def countScan (pat : List Char) : Nat → List Char → Nat
  | _, [] => 0
  | s + 1, _ :: cs => countScan pat s cs
  | 0, c :: cs =>
    if startsWithChars pat (c :: cs) then
      1 + countScan pat (pat.length - 1) cs
    else countScan pat 0 cs

def countSubstrChars (pat l : List Char) : Nat := countScan pat 0 l

def countSubstr (s pat : String) : Nat := countSubstrChars pat.data s.data

/-- `len(s.split())`: the number of maximal non-whitespace runs. -/
def wordCountAux : Bool → List Char → Nat
  | _, [] => 0
  | inWord, c :: cs =>
    if isWs c then wordCountAux false cs
    else if inWord then wordCountAux true cs
    else 1 + wordCountAux true cs

def wordCount (s : String) : Nat := wordCountAux false s.data

/-- Python `str.isdigit()`-style check for ASCII digits (`\d`). -/
def isDigitCh (c : Char) : Bool := '0' ≤ c && c ≤ '9'

/-- `\w`: word character, ASCII part. -/
def isWordCh (c : Char) : Bool :=
  ('a' ≤ c && c ≤ 'z') || ('A' ≤ c && c ≤ 'Z') || isDigitCh c || c = '_'

/-- `[ivxlc]`: the lowercase roman-numeral letters used by the sources. -/
def isRomanCh (c : Char) : Bool :=
  c = 'i' || c = 'v' || c = 'x' || c = 'l' || c = 'c'

/-! ## A token-list matcher for the `re` patterns of the sources

Every regular expression the two parser modules use is a concatenation of
literals, character-class repetitions (`\s*`, `\s+`, `\d+`, `[ivxlc]+`, `\w+`),
the wildcard repetitions `.*`/`.+` (any character except newline) and the word
boundary `\b`; top-level alternations `(a|b|…)` are expanded into one token
list per alternative at each use site.  `matchToks toks prev cs` decides
whether some prefix of `cs` matches the whole token list, where `prev` is the
character immediately before `cs` (for `\b`). -/

inductive Tok where
  | lit (s : List Char)
  | anyStar
  | anyPlus
  | wsStar
  | wsPlus
  | digitPlus
  | romanPlus
  | wordPlus
  | bnd
deriving Repr

def isWordOpt : Option Char → Bool
  | none => false
  | some c => isWordCh c

/-- The character preceding the rest of the input after consuming literal `s`. -/
def lastOr (s : List Char) (prev : Option Char) : Option Char :=
  match s.getLast? with
  | some c => some c
  | none => prev

/-- The matcher, fuel-bounded for kernel computability: every recursive call
strictly decreases `cs.length + toks.length` (a `lit` consumes its characters
or, when empty, one token; `bnd` one token; every repetition either drops its
token or consumes one character), so `cs.length + toks.length + 1` fuel is
exact. -/
def matchGo : Nat → List Tok → Option Char → List Char → Bool
  | 0, _, _, _ => false
  | _ + 1, [], _, _ => true
  | fuel + 1, .lit s :: rest, prev, l =>
    startsWithChars s l && matchGo fuel rest (lastOr s prev) (l.drop s.length)
  | fuel + 1, .bnd :: rest, prev, l =>
    (isWordOpt prev != (match l with | [] => false | c :: _ => isWordCh c))
      && matchGo fuel rest prev l
  | fuel + 1, .anyStar :: rest, prev, [] => matchGo fuel rest prev []
  | fuel + 1, .anyStar :: rest, prev, c :: cs' =>
    matchGo fuel rest prev (c :: cs')
      || ((c != '\n') && matchGo fuel (.anyStar :: rest) (some c) cs')
  | _ + 1, .anyPlus :: _, _, [] => false
  | fuel + 1, .anyPlus :: rest, _, c :: cs' =>
    (c != '\n') && matchGo fuel (.anyStar :: rest) (some c) cs'
  | fuel + 1, .wsStar :: rest, prev, [] => matchGo fuel rest prev []
  | fuel + 1, .wsStar :: rest, prev, c :: cs' =>
    matchGo fuel rest prev (c :: cs')
      || (isWs c && matchGo fuel (.wsStar :: rest) (some c) cs')
  | _ + 1, .wsPlus :: _, _, [] => false
  | fuel + 1, .wsPlus :: rest, _, c :: cs' =>
    isWs c && matchGo fuel (.wsStar :: rest) (some c) cs'
  | _ + 1, .digitPlus :: _, _, [] => false
  | fuel + 1, .digitPlus :: rest, _, c :: cs' =>
    isDigitCh c
      && (matchGo fuel rest (some c) cs' || matchGo fuel (.digitPlus :: rest) (some c) cs')
  | _ + 1, .romanPlus :: _, _, [] => false
  | fuel + 1, .romanPlus :: rest, _, c :: cs' =>
    isRomanCh c
      && (matchGo fuel rest (some c) cs' || matchGo fuel (.romanPlus :: rest) (some c) cs')
  | _ + 1, .wordPlus :: _, _, [] => false
  | fuel + 1, .wordPlus :: rest, _, c :: cs' =>
    isWordCh c
      && (matchGo fuel rest (some c) cs' || matchGo fuel (.wordPlus :: rest) (some c) cs')

def matchToks (toks : List Tok) (prev : Option Char) (cs : List Char) : Bool :=
  matchGo (cs.length + toks.length + 1) toks prev cs

/-- `re.search(pattern, s)`: some suffix position admits a match.
`prev` tracks the character before the current position. -/
def searchFrom (toks : List Tok) (prev : Option Char) (cs : List Char) : Bool :=
  matchToks toks prev cs ||
    match cs with
    | [] => false
    | c :: cs' => searchFrom toks (some c) cs'

/-- `bool(re.search(pattern, s))` for a single token-list pattern. -/
def searchToks (toks : List Tok) (s : String) : Bool := searchFrom toks none s.data

/-- `bool(re.match(pattern, s))`: anchored at the start of `s`. -/
def matchAtStart (toks : List Tok) (s : String) : Bool := matchToks toks none s.data

/-- Shorthand for a literal token built from a string. -/
def litS (s : String) : Tok := .lit s.data

/-! ## The parsed markup tree

`Node` models the BeautifulSoup tree handed to the engine by the external
markup parser: `text` is a `NavigableString`, `comment` a `Comment` (a
`NavigableString` subclass), and `tag` an element with its attributes and
children.  A document is the list of top-level children of the soup. -/

inductive Node where
  | text (s : String)
  | comment (s : String)
  | tag (name : String) (attrs : List (String × String)) (children : List Node)
deriving Repr

def tagName : Node → Option String
  | .tag t _ _ => some t
  | _ => none

mutual

/-- `element.get_text()`: the concatenation of all `NavigableString`
descendants.  Comments are excluded, as by BeautifulSoup's default
`interesting_string_types`. -/
def getText : Node → String
  | .text s => s
  | .comment _ => ""
  | .tag _ _ cs => getTextList cs

def getTextList : List Node → String
  | [] => ""
  | n :: rest => getText n ++ getTextList rest

end

-- `soup.find(name)`: the first tag with the given name, in document
-- (preorder) order.
mutual

def findTagNode (nm : String) : Node → Option Node
  | .tag t a cs =>
    if t = nm then some (.tag t a cs) else findTag nm cs
  | _ => none

def findTag (nm : String) : List Node → Option Node
  | [] => none
  | n :: rest =>
    match findTagNode nm n with
    | some r => some r
    | none => findTag nm rest

end

-- `soup.find_all(name)`: every tag with the given name, in document order.
mutual

def findAllTagNode (nm : String) : Node → List Node
  | .tag t a cs => (if t = nm then [Node.tag t a cs] else []) ++ findAllTag nm cs
  | _ => []

def findAllTag (nm : String) : List Node → List Node
  | [] => []
  | n :: rest => findAllTagNode nm n ++ findAllTag nm rest

end

-- `for tag in soup([...]): tag.decompose()`: remove every tag whose name is
-- in `names`, together with its whole subtree.
mutual

def decomposeNode (names : List String) : Node → List Node
  | .tag t a cs =>
    if names.contains t then [] else [Node.tag t a (decomposeTags names cs)]
  | n => [n]

def decomposeTags (names : List String) : List Node → List Node
  | [] => []
  | n :: rest => decomposeNode names n ++ decomposeTags names rest

end

-- Document (preorder) flattening: each node followed by its descendants.
mutual

def flatOne : Node → List Node
  | .tag t a cs => .tag t a cs :: flat cs
  | n => [n]

def flat : List Node → List Node
  | [] => []
  | n :: rest => flatOne n ++ flat rest

end

/-- `element.get(key, dflt)` on a tag's attributes. -/
def getAttr (n : Node) (key dflt : String) : String :=
  match n with
  | .tag _ attrs _ =>
    match attrs.find? (fun p => p.1 = key) with
    | some p => p.2
    | none => dflt
  | _ => dflt

/-! ## Chapter Classifier (`is_chapter_content`, epub_parser.py) -/

/-- Filename fragments that always exclude a document. -/
def exclude_patterns : List String :=
  ["cover", "toc", "contents", "copyright", "title", "thank", "oceanof"]

/-- `any(pattern in file_name_lower for pattern in exclude_patterns)`. -/
def excludedByName (file_name : String) : Bool :=
  exclude_patterns.any (fun p => strContains (pyLower file_name) p)

/-- The ratio-based TOC rejection of `is_chapter_content`:
`chapter_count > 12` (with `words > 0`) and `chapter_count / words > 0.02`.
The float comparison `chapter_count / words > 0.02` is modelled exactly as the
rational inequality `50 * chapter_count > words`; the two decide alike for
every word count a document can have (a divergence would need a denominator
beyond `10^16`). -/
def tocDensityReject (text : String) : Bool :=
  let chapter_count := countSubstr (pyLower text) "chapter"
  let words := wordCount text
  words > 0 && chapter_count > 12 && 50 * chapter_count > words

/-- The five `preview_patterns` regexes, as token lists. -/
def preview_patterns : List (List Tok) :=
  [ [litS "preview of ", .anyPlus, litS " book"],
    [litS "book ", .wordPlus, litS " of ", .anyPlus, litS " series"],
    [litS "coming in book ", .wordPlus],
    [litS "next book", .anyStar, litS ":"],
    [litS "continues in", .anyStar, litS "book"] ]

/-- The four `extended_patterns` regexes (each match adds 2 to the score). -/
def extended_patterns : List (List Tok) :=
  [ [litS "chapter", .wsStar, .romanPlus],
    [litS "ch.", .wsStar, .digitPlus],
    [litS "part", .wsStar, .digitPlus],
    [litS "interlude"] ]

/-- The two `story_patterns` regexes.  The first,
`\b(he|she|they)\s+(said|walked|ran|looked|saw)`, is expanded over its
alternatives; the second, `(once upon|in the|it was|there was)`, searches for
any of four literal substrings. -/
def storyHit (first300 : String) : Bool :=
  (["he", "she", "they"].any fun pron =>
    (["said", "walked", "ran", "looked", "saw"].any fun verb =>
      searchToks [.bnd, litS pron, .wsPlus, litS verb] first300))
  || (["once upon", "in the", "it was", "there was"].any fun ph =>
        strContains first300 ph)

/-- The body of `is_chapter_content`'s `try` block after the successful
construction of the soup, operating on `soup.get_text()`. -/
def analyzeText (rawText : String) : Bool :=
  let text := pyStrip rawText
  if pyLen text < 200 then false
  else
    let low := pyLower text
    let first300 := pyTake 300 low
    if tocDensityReject text then false
    else if strContains (pyTake 200 low) "contents"
            && strContains (pyTake 200 low) "prologue" then false
    else if ["glossary", "about the author", "acknowledgments"].any
              (fun w => strContains (pyTake 200 low) w) then false
    else if preview_patterns.any (fun p => searchToks p (pyTake 500 low)) then false
    else
      let hasChapterNumber := searchToks [litS "chapter", .wsStar, .digitPlus] first300
      let hasPrologue := strContains first300 "prologue"
      let hasEpilogue := strContains first300 "epilogue"
      if (hasChapterNumber || hasPrologue || hasEpilogue) && pyLen text > 500 then true
      else
        let score :=
          2 * (extended_patterns.filter (fun p => searchToks p first300)).length
            + (if storyHit first300 then 1 else 0)
        if pyLen text > 1500 then decide (score + 1 ≥ 2)
        else if pyLen text < 600 then decide (score ≥ 3)
        else decide (score ≥ 2)

/-- One candidate document as the classifier sees it: its file name, the byte
length of its raw content, and the plain text `soup.get_text()` produced by the
external markup parser — `none` models the parser (or any later step of the
analysis) raising, which the source's `except` clause turns into the
`len(content) > 800` fallback. -/
structure ClassifierInput where
  file_name : String
  rawLen : Nat
  text : Option String

/-- `is_chapter_content(file_name, content)` of epub_parser.py. -/
def is_chapter_content (it : ClassifierInput) : Bool :=
  if excludedByName it.file_name then false
  else if it.rawLen < 300 then false
  else
    match it.text with
    | none => decide (it.rawLen > 800)
    | some t => analyzeText t

/-! ## Title Extractor (`extract_chapter_title`, epub_parser.py)

Only the heading phase (the `for tag in ['h1','h2','h3','h4']` loop) is spelled
out; the later strategies — paragraph-based extraction, the four line-based
strategies and the final paragraph fallback (epub_parser.py lines 294-345) —
are abstracted as a `fallback` function over which every theorem below
quantifies universally, since they only run when the heading phase finds
nothing. -/

/-- `re.sub(r'^Chapter\s*(\d+)\s*[-:]\s*', r'Chapter \1: ', title, flags=I)`
followed by `re.sub(r'^Chapter\s*(\d+)\s*$', r'Chapter \1', ·, flags=I)`.
Both patterns are anchored and their quantifiers admit no backtracking, so
maximal munch is exact. -/
def stripCI (pat : List Char) : List Char → Option (List Char)
  | l =>
    match pat, l with
    | [], rest => some rest
    | _ :: _, [] => none
    | p :: ps, c :: cs => if c.toLower = p then stripCI ps cs else none

def normTitle (title : String) : String :=
  let l := title.data
  let step1 :=
    match stripCI "chapter".data l with
    | none => l
    | some r1 =>
      let r2 := r1.dropWhile isWs
      let ds := r2.takeWhile isDigitCh
      if ds = [] then l
      else
        let r4 := (r2.drop ds.length).dropWhile isWs
        match r4 with
        | c :: r5 =>
          if c = '-' || c = ':' then
            "Chapter ".data ++ ds ++ ": ".data ++ r5.dropWhile isWs
          else l
        | [] => l
  let step2 :=
    match stripCI "chapter".data step1 with
    | none => step1
    | some r1 =>
      let r2 := r1.dropWhile isWs
      let ds := r2.takeWhile isDigitCh
      if ds ≠ [] && (r2.drop ds.length).dropWhile isWs = [] then
        "Chapter ".data ++ ds
      else step1
  ⟨step2⟩

def title_stopwords : List String := ["chapter", "the", "a", "an"]

/-- The heading loop: for each level h1..h4 take the document's first heading
of that level; the first one whose stripped text is longer than 2 characters
and is not a stop-word is normalized, truncated to 200 characters and
returned. -/
def headingPhaseAux : List String → List Node → Option String
  | [], _ => none
  | tg :: rest, doc =>
    match findTag tg doc with
    | some h =>
      let title := pyStrip (getText h)
      if pyLen title > 2 && !(title_stopwords.contains (pyLower title)) then
        some (pyTake 200 (normTitle title))
      else headingPhaseAux rest doc
    | none => headingPhaseAux rest doc

def headingPhase (doc : List Node) : Option String :=
  headingPhaseAux ["h1", "h2", "h3", "h4"] doc

/-- `extract_chapter_title(soup)`, with the post-heading strategies abstracted
as `fallback`. -/
def extract_chapter_title (fallback : List Node → String) (doc : List Node) : String :=
  match headingPhase doc with
  | some t => t
  | none => fallback doc

/-! ## Image extraction (`extract_images_from_epub`) -/

/-- One `ITEM_IMAGE` of the book: file name, media type (`""` models `None`)
and raw content (a `String` standing for the bytes). -/
structure ImageItem where
  file_name : String
  media_type : String
  content : String
deriving Repr, DecidableEq

structure ImageRecord where
  id : String
  originalPath : String
  contentType : String
  size : Nat
  data : String
deriving Repr, DecidableEq

/-- `base64.b64encode(content).decode('utf-8')`, modelled as a fixed injective
encoding of the content (the identity); no property below depends on the
encoding's shape, only on its being a function of the content. -/
def b64encode (content : String) : String := content

/-- `extract_images_from_epub(book)`.  The fresh `uuid.uuid4()` drawn for the
k-th image is modelled by `ids k`. -/
def extract_images_from_epub (ids : Nat → String) (imgs : List ImageItem) :
    List ImageRecord :=
  imgs.enum.map fun ki =>
    { id := ids ki.1
      originalPath := ki.2.file_name
      contentType := if ki.2.media_type = "" then "image/jpeg" else ki.2.media_type
      size := pyLen ki.2.content
      data := b64encode ki.2.content }

/-! ## Content extraction with images (`extract_chapter_content_with_images`) -/

/-- The paragraph filter of the h2 sibling walk (epub_parser.py lines 72-75 and
79-82): strip, keep only non-empty text longer than 10 characters, collapse
whitespace. -/
def pTextH2 (raw : String) : Option String :=
  let text := pyStrip raw
  if text ≠ "" && pyLen text > 10 then some (normalizeWs text) else none

/-- Python `s.replace(old, new)` for a non-empty `old`: replace each
non-overlapping occurrence, scanning left to right (fuel-bounded; every step
consumes at least one character). -/
def replaceGo (pat rep : List Char) : Nat → List Char → List Char
  | 0, l => l
  | _, [] => []
  | fuel + 1, c :: cs =>
    if startsWithChars pat (c :: cs) then
      rep ++ replaceGo pat rep fuel ((c :: cs).drop pat.length)
    else c :: replaceGo pat rep fuel cs

def pyReplace (s old new : String) : String :=
  ⟨replaceGo old.data new.data s.data.length s.data⟩

/-- The paragraph filter of `extract_chapter_content_with_images` (lines
466-471): as `pTextH2`, then `.replace('\n', ' ').strip()`. -/
def pTextImg (raw : String) : Option String :=
  let text := pyStrip raw
  if text ≠ "" && pyLen text > 10 then
    some (pyStrip (pyReplace (normalizeWs text) "\n" " "))
  else none

/-- `{img["originalPath"]: img["id"] for img in epub_images}` with Python dict
semantics: keys in first-insertion order, each mapped to the last id recorded
for it. -/
def imagePathMap (recs : List ImageRecord) : List (String × String) :=
  ((recs.map (·.originalPath)).dedup).map fun k =>
    (k, match (recs.filter (fun r => r.originalPath = k)).getLast? with
        | some r => r.id
        | none => "")

def strEndsWith (s tailPat : String) : Bool :=
  startsWithChars tailPat.data.reverse s.data.reverse

/-- The image-matching loop: the first map entry whose path contains `src` as a
substring or ends with `src`. -/
def matchImage (imap : List (String × String)) (src : String) : Option String :=
  (imap.find? fun p => strContains p.1 src || strEndsWith p.1 src).map (·.2)

mutual

def findAllTagsInNode (names : List String) : Node → List Node
  | .tag t a cs =>
    (if names.contains t then [Node.tag t a cs] else []) ++ findAllTagsIn names cs
  | _ => []

/-- `soup.find_all([name, …])`: every tag with a name in `names`, in document
order. -/
def findAllTagsIn (names : List String) : List Node → List Node
  | [] => []
  | n :: rest => findAllTagsInNode names n ++ findAllTagsIn names rest

end

/-- `extract_chapter_content_with_images(soup, epub_images)`: walk every `p`
and `img` in document order, collecting filtered paragraph text and image
placeholders. -/
def extract_chapter_content_with_images (epub_images : List ImageRecord)
    (doc : List Node) : List String × List String :=
  let d := decomposeTags ["nav", "header", "footer"] doc
  let imap := imagePathMap epub_images
  (findAllTagsIn ["p", "img"] d).foldl
    (fun acc el =>
      match tagName el with
      | some "p" =>
        (match pTextImg (getText el) with
         | some t => (acc.1 ++ [t], acc.2)
         | none => acc)
      | some "img" =>
        let src := getAttr el "src" ""
        let alt := getAttr el "alt" ""
        (match matchImage imap src with
         | some mid =>
           (acc.1 ++ ["[IMAGE: " ++ (if alt = "" then "Image" else alt)
                        ++ " - ID: " ++ mid ++ "]"],
            acc.2 ++ [mid])
         | none => acc)
      | _ => acc)
    ([], [])

/-! ## The h2 split of `parse_epub_content` -/

-- Every h2 of the document paired with its following siblings, in document
-- order (`soup.find_all('h2')` with `find_next_sibling()` walks).
mutual

def h2SplitsNode : Node → List Node → List (Node × List Node)
  | .tag t a cs, rest =>
    (if t = "h2" then [(Node.tag t a cs, rest)] else []) ++ h2Splits cs
  | _, _ => []

def h2Splits : List Node → List (Node × List Node)
  | [] => []
  | n :: rest => h2SplitsNode n rest ++ h2Splits rest

end

def divLike : List String := ["div", "blockquote", "section"]

/-- The sibling walk from one h2 (epub_parser.py lines 63-84): stop at the
next sibling h2; collect filtered text from `p` siblings and from `p`
descendants of `div`/`blockquote`/`section` siblings.  `find_next_sibling()`
skips strings and comments. -/
def collectH2Content : List Node → List String
  | [] => []
  | .tag t a cs :: rest =>
    if t = "h2" then []
    else if t = "p" then
      (match pTextH2 (getText (.tag t a cs)) with
       | some s => [s]
       | none => []) ++ collectH2Content rest
    else if divLike.contains t then
      (findAllTag "p" cs).filterMap (fun p => pTextH2 (getText p))
        ++ collectH2Content rest
    else collectH2Content rest
  | _ :: rest => collectH2Content rest

/-- The h2 branch of the per-item loop: one candidate `(title, content)` per
h2 with non-empty title and non-empty collected content. -/
def h2Candidates (d : List Node) : List (String × List String) :=
  (h2Splits d).filterMap fun hs =>
    let title := pyStrip (getText hs.1)
    if title = "" then none
    else
      let content := collectH2Content hs.2
      if content = [] then none else some (title, content)

/-! ## `parse_epub_content` -/

structure Chapter where
  number : Nat
  title : String
  content : List String
deriving Repr, DecidableEq

structure Novel where
  title : String
  author : String
  chapters : List Chapter
deriving Repr, DecidableEq

/-- A Firestore chapter dictionary. -/
structure FChapter where
  chapterNumber : Nat
  chapterTitle : String
  content : List String
  images : List String
deriving Repr, DecidableEq

/-- One `ITEM_DOCUMENT` of the book.  `rawLen` is `len(item.content)`;
`text` is the classifier's `soup.get_text()` view of the raw content (`none`
models the classifier's analysis raising); `doc` is the parsed tree used by
the content pipeline. -/
structure Item where
  file_name : String
  rawLen : Nat
  text : Option String
  doc : List Node

/-- An EPUB as the engine receives it from ebooklib: metadata, document items
and image items. -/
structure Epub where
  titleMeta : Option String
  authorMeta : Option String
  items : List Item
  images : List ImageItem

-- `sorted(items, key=lambda x: x.file_name)`: a stable sort by file name.
-- Python's `sorted` is stable; a stable insertion sort by the same key
-- (inserting strictly before the first strictly-greater run, i.e. keeping
-- earlier items first among equal keys) produces the same list.
def insertByName (x : Item) : List Item → List Item
  | [] => [x]
  | y :: ys =>
    if x.file_name ≤ y.file_name then x :: y :: ys else y :: insertByName x ys

def sortByFileName (l : List Item) : List Item := l.foldr insertByName []

/-- The per-item candidate chapters of `parse_epub_content`: each is an
optional explicit title (`none` means "use the synthesized `Chapter n`"),
a non-empty content list, and the chapter's image ids. -/
def itemCandidates (fallback : List Node → String) (images : List ImageRecord)
    (doc : List Node) : List (Option String × List String × List String) :=
  let d := decomposeTags ["script", "style", "nav", "header", "footer"] doc
  match h2Splits d with
  | _ :: _ =>
    (h2Candidates d).map fun tc => (some tc.1, tc.2, ([] : List String))
  | [] =>
    let ci := extract_chapter_content_with_images images d
    match ci.1 with
    | [] => []
    | _ :: _ =>
      let t := extract_chapter_title fallback d
      [(if t = "" then none else some t, ci.1, ci.2)]

/-- The sequential numbering of the emitted candidates, starting at `n`. -/
def assignNumbers : Nat → List (Option String × List String × List String) → List FChapter
  | _, [] => []
  | n, (t, c, imgs) :: rest =>
    { chapterNumber := n
      chapterTitle := match t with
                      | some s => s
                      | none => "Chapter " ++ toString n
      content := c
      images := imgs } :: assignNumbers (n + 1) rest

/-- `parse_epub_content(epub_content)`.  The external archive/markup parsing
is received as the already-parsed `Epub`; `fallback` abstracts the
non-heading title strategies; `ids` is the stream of fresh uuid4 values. -/
def parse_epub_content (fallback : List Node → String) (ids : Nat → String)
    (e : Epub) : Novel × List FChapter × List ImageRecord :=
  let images := extract_images_from_epub ids e.images
  let items := sortByFileName e.items
  let accepted := items.filter fun it =>
    is_chapter_content ⟨it.file_name, it.rawLen, it.text⟩
  let fchapters := assignNumbers 1
    (accepted.flatMap fun it => itemCandidates fallback images it.doc)
  let chapters := fchapters.map fun c =>
    { number := c.chapterNumber, title := c.chapterTitle, content := c.content }
  ({ title := e.titleMeta.getD "Unknown Title"
     author := e.authorMeta.getD "Unknown Author"
     chapters := chapters },
   fchapters, images)

/-! ## Spine-based parser (epub_parser_spine.py) -/

/-- `extract_chapter_title_from_content`'s heading loop: first h1..h4 (per
level) with non-empty stripped text. -/
def spineTitleHeadAux : List String → List Node → Option String
  | [], _ => none
  | tg :: rest, doc =>
    match findTag tg doc with
    | some h =>
      let title := pyStrip (getText h)
      if title ≠ "" then some (pyTake 200 title) else spineTitleHeadAux rest doc
    | none => spineTitleHeadAux rest doc

def spineKeywords : List String :=
  ["chapter", "prologue", "epilogue", "part", "interlude", "section", "prelude"]

/-- `re.match(r'^(chapter|prologue|epilogue|part|interlude|section|prelude)(\s+|:)',
text, re.IGNORECASE)`. -/
def spineKwMatch (text : String) : Bool :=
  spineKeywords.any fun kw =>
    matchAtStart [litS kw, .wsPlus] (pyLower text)
      || matchAtStart [litS kw, litS ":"] (pyLower text)

/-- The paragraph fallback of `extract_chapter_title_from_content`: the first
of the first five `p` tags whose stripped text starts with a chapter keyword. -/
def spinePTitle (doc : List Node) : String :=
  match ((findAllTag "p" doc).take 5).find?
          (fun p => spineKwMatch (pyStrip (getText p))) with
  | some p => pyTake 200 (pyStrip (getText p))
  | none => ""

/-- `extract_chapter_title_from_content(soup)`. -/
def extract_chapter_title_from_content (doc : List Node) : String :=
  match spineTitleHeadAux ["h1", "h2", "h3", "h4"] doc with
  | some t => t
  | none =>
    match findTag "title" doc with
    | some tt =>
      let t := pyStrip (getText tt)
      if t ≠ "" then pyTake 200 t else spinePTitle doc
    | none => spinePTitle doc

/-- The block tags of `extract_content_from_elements`. -/
def BLOCK_TAGS : List String :=
  ["p", "div", "section", "article", "aside", "blockquote",
   "h1", "h2", "h3", "h4", "h5", "h6", "li"]

/-- `flush_buffer()`: join the buffer, strip; keep the whitespace-collapsed
text if non-empty. -/
def flushBuf (buf : List String) : List String :=
  let text := pyStrip (String.join buf)
  if text = "" then [] else [normalizeWs text]

mutual

/-- `process_element(element)` for a tag: walk its children with a running
text buffer. -/
def processElement (n : Node) : List String :=
  match n with
  | .tag _ _ cs => processKids cs []
  | _ => []

/-- The `for child in element.children` loop of `process_element`: comments
are skipped; strings (stripped of `\n\r`) feed the buffer; `br` flushes;
block tags flush then recurse; inline tags append their flattened text to the
buffer.  The final `flush_buffer()` is the `[]` case. -/
def processKids : List Node → List String → List String
  | [], buf => flushBuf buf
  | .comment _ :: rest, buf => processKids rest buf
  | .text s :: rest, buf =>
    let t := pyStripNR s
    if t = "" then processKids rest buf else processKids rest (buf ++ [t])
  | .tag t a cs :: rest, buf =>
    if t = "br" then flushBuf buf ++ processKids rest []
    else if BLOCK_TAGS.contains t then
      flushBuf buf ++ processElement (.tag t a cs) ++ processKids rest []
    else processKids rest (buf ++ [getText (.tag t a cs)])

end

/-- `extract_content_from_elements(elements)`: top-level tags are processed
as elements; top-level strings (comments included — `Comment` is a
`NavigableString`) become their own whitespace-collapsed paragraphs when
non-empty after stripping. -/
def extract_content_from_elements (elements : List Node) : List String :=
  elements.foldl
    (fun acc el =>
      match el with
      | .tag t a cs => acc ++ processElement (.tag t a cs)
      | .text s =>
        let t := pyStrip s
        if t = "" then acc else acc ++ [normalizeWs t]
      | .comment s =>
        let t := pyStrip s
        if t = "" then acc else acc ++ [normalizeWs t])
    []

/-- `extract_content_from_soup(soup)`: take the `body`'s children (or the
whole soup), drop whitespace-only strings, and extract. -/
def extract_content_from_soup (doc : List Node) : List String :=
  let container :=
    match findTag "body" doc with
    | some (.tag _ _ cs) => cs
    | _ => doc
  let children := container.filter fun c =>
    match c with
    | .text s => pyStrip s ≠ ""
    | .comment s => pyStrip s ≠ ""
    | _ => true
  extract_content_from_elements children

/-- One manifest item as `get_item_with_id` returns it.  `doc = none` models
BeautifulSoup raising on this item's content (caught by the per-item
`except`, which skips the item). -/
structure SpineItem where
  file_name : String
  isDocument : Bool
  doc : Option (List Node)

/-- A book as the spine parser sees it: the ordered spine idrefs and the
id-to-item lookup. -/
structure SpineBook where
  spine : List String
  itemsById : String → Option SpineItem

/-- A spine chapter dictionary (`sourceFile` is kept for comparison, as in the
source). -/
structure SpineChapter where
  chapterNumber : Nat
  chapterTitle : String
  content : List String
  images : List String
  sourceFile : String
deriving Repr, DecidableEq

/-- The spine loop of `extract_chapters_from_spine`, with the running chapter
number.  Missing items, non-documents and items whose parse raises are
skipped without advancing the number; the filename-skip block of the source
is a `pass` and does nothing. -/
def spineGo (b : SpineBook) : Nat → List String → List SpineChapter
  | _, [] => []
  | n, iid :: rest =>
    match b.itemsById iid with
    | none => spineGo b n rest
    | some it =>
      if !it.isDocument then spineGo b n rest
      else
        match it.doc with
        | none => spineGo b n rest
        | some d0 =>
          let d := decomposeTags ["script", "style", "nav", "header", "footer"] d0
          let t := extract_chapter_title_from_content d
          let title := if t = "" then "Chapter " ++ toString n else t
          let content := extract_content_from_soup d
          match content with
          | [] => spineGo b n rest
          | _ :: _ =>
            if 50 < pyLen (pyStrip (String.join content)) then
              { chapterNumber := n, chapterTitle := title, content := content,
                images := [], sourceFile := it.file_name } :: spineGo b (n + 1) rest
            else spineGo b n rest

/-- `extract_chapters_from_spine(book)`. -/
def extract_chapters_from_spine (b : SpineBook) : List SpineChapter :=
  spineGo b 1 b.spine

/-! ## Specification-side definitions

These follow the spec's words (not the source) and are compared with the
source-derived functions above by the theorems below. -/

/-- Spec §4.4 (Reading-order-driven), per document: a document of the spine
contributes a chapter exactly when it resolves to a parseable `ITEM_DOCUMENT`
and its extracted paragraphs, joined and stripped, are longer than 50
characters; the contribution carries the file name, the Title Extractor's
result (`none` when empty) and the Content Block Extractor's paragraphs. -/
def spineDocEmission (b : SpineBook) (iid : String) :
    Option (String × Option String × List String) :=
  match b.itemsById iid with
  | none => none
  | some it =>
    if !it.isDocument then none
    else
      match it.doc with
      | none => none
      | some d0 =>
        let d := decomposeTags ["script", "style", "nav", "header", "footer"] d0
        let content := extract_content_from_soup d
        match content with
        | [] => none
        | _ :: _ =>
          if 50 < pyLen (pyStrip (String.join content)) then
            some (it.file_name,
              (let t := extract_chapter_title_from_content d
               if t = "" then none else some t),
              content)
          else none

/-- Spec §4.4: the emitted documents, in spine order. -/
def spineEmissionList (b : SpineBook) : List (String × Option String × List String) :=
  b.spine.filterMap (spineDocEmission b)

/-- Spec §4.5 (chapter numbering): the k-th emission becomes chapter number k,
with the synthesized title `Chapter k` when the Title Extractor was empty. -/
def mkSpineChapter (k : Nat) (e : String × Option String × List String) :
    SpineChapter :=
  { chapterNumber := k
    chapterTitle := match e.2.1 with
                    | some t => t
                    | none => "Chapter " ++ toString k
    content := e.2.2
    images := []
    sourceFile := e.1 }

/-! Claim-side document-order vocabulary for the h2 split (C10). -/

def isH2 (n : Node) : Bool := tagName n = some "h2"

def isPtag (n : Node) : Bool := tagName n = some "p"

def childrenOf : Node → List Node
  | .tag _ _ cs => cs
  | _ => []

/-- Sibling lists as `find_next_sibling()` sees them: tags only. -/
def tagsOnly (ns : List Node) : List Node :=
  ns.filter (fun n => (tagName n).isSome)

/-- The "next sibling h2" reading of the content walk: take the tag siblings
up to the first sibling h2 and collect filtered `p` text, directly or nested
inside `div`/`blockquote`/`section` siblings. -/
def walkSpec (sibs : List Node) : List String :=
  ((tagsOnly sibs).takeWhile (fun n => !isH2 n)).flatMap fun n =>
    match tagName n with
    | some "p" => (pTextH2 (getText n)).toList
    | some t =>
      if divLike.contains t then
        (findAllTag "p" (childrenOf n)).filterMap (fun p => pTextH2 (getText p))
      else []
    | none => []

/-- The filtered texts of `p` elements located, in document (preorder) order,
at or after the first h2 of the document. -/
def pTextsFromFirstH2 (l : List Node) : List String :=
  (((flat l).dropWhile (fun n => !isH2 n)).filter isPtag).filterMap
    (fun p => pTextH2 (getText p))

/-- The h2 elements of the document in document order. -/
def h2Nodes (l : List Node) : List Node := (flat l).filter isH2

/-- Preorder positions of the h2 elements. -/
def h2Positions (l : List Node) : List Nat :=
  ((flat l).enum.filter (fun p => isH2 p.2)).map (·.1)

/-- The filtered texts of `p` elements whose preorder position lies strictly
between the j-th h2 and the (j+1)-th h2 (or the end of the document). -/
def pTextsBetween (l : List Node) (j : Nat) : List String :=
  match (h2Positions l).get? j with
  | none => []
  | some lo =>
    ((flat l).enum.filter fun p =>
        isPtag p.2 && lo < p.1 &&
          (match (h2Positions l).get? (j + 1) with
           | none => true
           | some hi => p.1 < hi)).filterMap
      (fun p => pTextH2 (getText p.2))

/-- C10 as stated, at one document: every emitted `(title, content)` pair
belongs to some h2 (its stripped text is the title) with every content string
among the texts of `p` elements strictly between that h2 and the next h2 in
document order. -/
def claimC10At (l : List Node) (cands : List (String × List String)) : Bool :=
  cands.all fun tc =>
    (List.range (h2Nodes l).length).any fun j =>
      (match (h2Nodes l).get? j with
       | some h => pyStrip (getText h) = tc.1
       | none => false)
      && tc.2.all (fun s => (pTextsBetween l j).contains s)

/-! ## Concrete inputs used by the claims -/

def pNode (s : String) : Node := .tag "p" [] [.text s]

/-- `n` copies of the chunk `w`, right-nested. -/
def repChars (w : List Char) : Nat → List Char
  | 0 => []
  | n + 1 => w ++ repChars w n

/-- A TOC-like text: the word `chapter` 50 times among 400 words. -/
def tocText400 : String :=
  ⟨repChars "chapter ".data 50 ++ repChars "w ".data 350⟩

/-- The same 50 occurrences among 4000 words. -/
def tocText4000 : String :=
  ⟨repChars "chapter ".data 50 ++ repChars "w ".data 3950⟩

/-- A plain-text view that rule 6 of the classifier accepts. -/
def narrativeText : String :=
  "Chapter 1 " ++ String.join (List.replicate 50 "all games end well here. ")

/-- The C5 example document: a level-1 heading `Chapter 7 - The Storm`. -/
def stormDoc : List Node := [.tag "h1" [] [.text "Chapter 7 - The Storm"]]

/-- The C6 example fragment `<p>This is <em>bold</em> text.</p>`. -/
def mergeDoc : List Node :=
  [.tag "p" [] [.text "This is ", .tag "em" [] [.text "bold"], .text " text."]]

/-- The C7 example fragment `Line one<br/>Line two`. -/
def breakDoc : List Node :=
  [.text "Line one", .tag "br" [] [], .text "Line two"]

/-- The C10 counterexample document: an h2 nested inside a `div` sibling does
not stop the first chapter's sibling walk, so the paragraph after it leaks
into the first chapter. -/
def nestedH2Doc : List Node :=
  [.tag "body" []
    [.tag "h2" [] [.text "Alpha"],
     .tag "div" [] [pNode "This paragraph zero is long.", .tag "h2" [] [.text "Beta"]],
     pNode "This paragraph one is long."]]

/-- The C10 counterexample document after the engine's decompose step. -/
def nestedH2Dec : List Node :=
  decomposeTags ["script", "style", "nav", "header", "footer"] nestedH2Doc

/-- A one-document EPUB whose only item is accepted by the classifier and
carries `nestedH2Doc`. -/
def nestedH2Epub : Epub :=
  { titleMeta := none
    authorMeta := none
    items := [{ file_name := "part1.xhtml", rawLen := 1000,
                text := some narrativeText, doc := nestedH2Doc }]
    images := [] }

/-- An EPUB with no document items and a single image (for C2). -/
def oneImageEpub : Epub :=
  { titleMeta := none
    authorMeta := none
    items := []
    images := [{ file_name := "img.jpg", media_type := "", content := "IMGBYTES" }] }

/-- An image-free EPUB (for the C2 witness). -/
def noImageEpub : Epub :=
  { titleMeta := some "T"
    authorMeta := some "A"
    items := [{ file_name := "part1.xhtml", rawLen := 1000,
                text := some narrativeText,
                doc := [pNode "A paragraph that is long enough to keep."] }]
    images := [] }

/-- A child that neither flushes nor recurses in `process_element`: a string,
a comment, or an inline tag (not `br`, not a block tag). -/
def isInlineChild : Node → Bool
  | .text _ => true
  | .comment _ => true
  | .tag t _ _ => !(t = "br") && !(BLOCK_TAGS.contains t)

/-- What one inline child contributes to the running buffer: stripped-of-
newlines text for strings (when non-empty), nothing for comments, flattened
text for inline tags. -/
def inlinePiece : Node → Option String
  | .text s =>
    let t := pyStripNR s
    if t = "" then none else some t
  | .comment _ => none
  | .tag t a cs => some (getText (.tag t a cs))

/-! ## Helper lemmas -/

theorem map_fst_enumFromEq {α : Type} (xs : List α) :
    ∀ n, ((xs.enumFrom n).map Prod.fst) = List.range' n xs.length := by
  induction xs with
  | nil => intro n; rfl
  | cons x xs ih =>
    intro n
    simp only [List.enumFrom, List.map, List.length_cons, List.range']
    exact congrArg (List.cons n) (ih (n + 1))

theorem assignNumbers_length (l : List (Option String × List String × List String)) :
    ∀ n, (assignNumbers n l).length = l.length := by
  induction l with
  | nil => intro n; rfl
  | cons c rest ih =>
    intro n
    simp only [assignNumbers, List.length_cons, ih (n + 1)]

theorem assignNumbers_map_number
    (l : List (Option String × List String × List String)) :
    ∀ n, (assignNumbers n l).map (fun c => c.chapterNumber) = List.range' n l.length := by
  induction l with
  | nil => intro n; rfl
  | cons c rest ih =>
    intro n
    simp only [assignNumbers, List.map, List.length_cons, List.range']
    exact congrArg (List.cons n) (ih (n + 1))

/-- One step of the spine loop: the head document either contributes no
chapter (counter unchanged) or exactly the chapter `spineDocEmission`
describes, numbered with the current counter. -/
theorem spineGo_cons (b : SpineBook) (iid : String) (rest : List String) (n : Nat) :
    spineGo b n (iid :: rest) =
      (match spineDocEmission b iid with
       | none => spineGo b n rest
       | some e => mkSpineChapter n e :: spineGo b (n + 1) rest) := by
  cases hit : b.itemsById iid with
  | none => simp [spineGo, spineDocEmission, hit]
  | some it =>
    cases hdoc : it.isDocument with
    | false => simp [spineGo, spineDocEmission, hit, hdoc]
    | true =>
      cases hd : it.doc with
      | none => simp [spineGo, spineDocEmission, hit, hdoc, hd]
      | some d0 =>
        cases hc : extract_content_from_soup
            (decomposeTags ["script", "style", "nav", "header", "footer"] d0) with
        | nil => simp [spineGo, spineDocEmission, hit, hdoc, hd, hc]
        | cons s ss =>
          by_cases hlen : 50 < pyLen (pyStrip (String.join (s :: ss)))
          · by_cases ht : extract_chapter_title_from_content
                (decomposeTags ["script", "style", "nav", "header", "footer"] d0) = ""
            · simp [spineGo, spineDocEmission, mkSpineChapter, hit, hdoc, hd, hc, hlen, ht]
            · simp [spineGo, spineDocEmission, mkSpineChapter, hit, hdoc, hd, hc, hlen, ht]
          · simp [spineGo, spineDocEmission, hit, hdoc, hd, hc, hlen]

/-- The spine loop with running counter `n` equals per-document emission in
spine order, enumerated from `n`. -/
theorem spineGo_eq (b : SpineBook) :
    ∀ (l : List String) (n : Nat),
      spineGo b n l =
        ((List.filterMap (spineDocEmission b) l).enumFrom n).map
          (fun p => mkSpineChapter p.1 p.2) := by
  intro l
  induction l with
  | nil => intro n; rfl
  | cons iid rest ih =>
    intro n
    rw [spineGo_cons]
    cases he : spineDocEmission b iid with
    | none => simp only [List.filterMap_cons, he]; exact ih n
    | some e =>
      simp only [List.filterMap_cons, he, List.enumFrom, List.map]
      exact congrArg (List.cons (mkSpineChapter n e)) (ih (n + 1))

theorem enumFrom_lengthEq {α : Type} (xs : List α) :
    ∀ n, (xs.enumFrom n).length = xs.length := by
  induction xs with
  | nil => intro n; rfl
  | cons x xs ih =>
    intro n
    simp only [List.enumFrom, List.length_cons, ih (n + 1)]

/-! ## Claim theorems -/

/-- C8: the reading-order strategy visits documents exactly in the book's
spine order, runs the Title Extractor and the Content Block Extractor on each
whole document, and emits a chapter for a document if and only if the
concatenation of its extracted paragraphs, after stripping, is longer than 50
characters (the emission test inside `spineDocEmission`); documents that
contribute no chapter do not advance the chapter counter — the emitted
chapters are exactly the spec-side per-document emissions in spine order,
numbered consecutively from 1. -/
theorem C8_spine_reading_order (b : SpineBook) :
    extract_chapters_from_spine b =
      ((spineEmissionList b).enumFrom 1).map (fun p => mkSpineChapter p.1 p.2) :=
  spineGo_eq b b.spine 1

/-- C1: for every input, the chapters emitted by the file-heuristic parser
(`parse_epub_content`, both the `Novel` chapters and the Firestore
dictionaries) and by the spine parser (`extract_chapters_from_spine`) are
numbered exactly `1..N` in emission order: `List.range' 1 N` is the list
`[1, 2, …, N]`, so the numbering starts at 1, increases by 1, and has no
gaps, duplicates or reordering, however many candidates were skipped. -/
theorem C1_dense_chapter_numbering :
    (∀ (fb : List Node → String) (ids : Nat → String) (e : Epub),
      ((parse_epub_content fb ids e).2.1.map (fun c => c.chapterNumber))
          = List.range' 1 (parse_epub_content fb ids e).2.1.length
        ∧ ((parse_epub_content fb ids e).1.chapters.map (fun c => c.number))
          = List.range' 1 (parse_epub_content fb ids e).1.chapters.length)
    ∧ (∀ b : SpineBook,
        ((extract_chapters_from_spine b).map (fun c => c.chapterNumber))
          = List.range' 1 (extract_chapters_from_spine b).length) := by
  constructor
  · intro fb ids e
    constructor
    · simp only [parse_epub_content]
      rw [assignNumbers_map_number, assignNumbers_length]
    · simp only [parse_epub_content]
      rw [List.map_map, List.length_map]
      have hcomp : ((fun c : Chapter => c.number) ∘
          (fun c : FChapter =>
            ({ number := c.chapterNumber
               title := c.chapterTitle
               content := c.content } : Chapter)))
          = (fun c : FChapter => c.chapterNumber) := rfl
      rw [hcomp, assignNumbers_map_number, assignNumbers_length]
  · intro b
    rw [extract_chapters_from_spine, spineGo_eq, List.map_map, List.length_map,
      enumFrom_lengthEq]
    exact map_fst_enumFromEq _ 1

/-- C9: whenever the classifier's internal content analysis raises (text
extraction yields no result, modelled by `text = none`), `is_chapter_content`
does not propagate the exception — it is a total Boolean function of its
input — and, for every file name that reaches the analysis, it accepts
exactly when the raw byte length exceeds 800. -/
theorem C9_classifier_exception_fallback (fn : String) (len : Nat)
    (hx : excludedByName fn = false) :
    is_chapter_content ⟨fn, len, none⟩ = decide (len > 800) := by
  unfold is_chapter_content
  simp only [hx, Bool.false_eq_true, if_false]
  by_cases hlen : len < 300
  · have h8 : ¬ (len > 800) := by omega
    simp [hlen, h8]
  · simp [hlen]

/-- Witness for C9: the fallback accepts a 900-byte document whose analysis
raised. -/
theorem C9_witness : is_chapter_content ⟨"chapter05.xhtml", 900, none⟩ = true := by
  have h := C9_classifier_exception_fallback "chapter05.xhtml" 900 (by decide)
  simpa using h

/-- C2 as stated is false: `parse_epub_content` draws a fresh `uuid.uuid4()`
for every image, so two invocations on the byte-identical one-image EPUB
(modelled by two draws of the identifier stream) return different image
records. -/
theorem C2_counterexample :
    parse_epub_content (fun _ => "") (fun _ => "a") oneImageEpub ≠
      parse_epub_content (fun _ => "") (fun _ => "b") oneImageEpub := by
  decide

/-- C2 amended: apart from the freshly drawn image identifiers the engine is
deterministic — the book metadata never depends on the identifier stream, and
on an EPUB with no images (so no identifier is drawn) two invocations with
any two streams return identical Novel, chapter dictionaries and image
records. -/
theorem C2_deterministic_modulo_image_ids :
    (∀ (fb : List Node → String) (ids1 ids2 : Nat → String) (e : Epub),
       (parse_epub_content fb ids1 e).1.title = (parse_epub_content fb ids2 e).1.title
       ∧ (parse_epub_content fb ids1 e).1.author = (parse_epub_content fb ids2 e).1.author)
    ∧ (∀ (fb : List Node → String) (ids1 ids2 : Nat → String) (e : Epub),
       e.images = [] →
       parse_epub_content fb ids1 e = parse_epub_content fb ids2 e) := by
  constructor
  · intro fb ids1 ids2 e
    exact ⟨rfl, rfl⟩
  · intro fb ids1 ids2 e h
    simp only [parse_epub_content, h, extract_images_from_epub, List.enum_nil,
      List.map_nil]

/-- Witness for the amended C2 on a concrete image-free EPUB. -/
theorem C2_witness :
    parse_epub_content (fun _ => "") (fun _ => "a") noImageEpub =
      parse_epub_content (fun _ => "") (fun _ => "b") noImageEpub :=
  C2_deterministic_modulo_image_ids.2 (fun _ => "") (fun _ => "a") (fun _ => "b")
    noImageEpub rfl

/-! Word-count and substring-count lemmas for the density-rule examples. -/

theorem wordCountAux_nonws (w : List Char) (hw : ∀ c ∈ w, isWs c = false) :
    ∀ l, wordCountAux true (w ++ l) = wordCountAux true l := by
  induction w with
  | nil => intro l; rfl
  | cons c cs ih =>
    intro l
    have hc : isWs c = false := hw c (by simp)
    have hcs : ∀ x ∈ cs, isWs x = false := fun x hx => hw x (by simp [hx])
    simp [wordCountAux, hc, ih hcs l]

theorem wordCountAux_word_space (w : List Char) (hne : w ≠ [])
    (hw : ∀ c ∈ w, isWs c = false) (l : List Char) :
    wordCountAux false (w ++ ' ' :: l) = 1 + wordCountAux false l := by
  cases w with
  | nil => exact absurd rfl hne
  | cons c cs =>
    have hc : isWs c = false := hw c (by simp)
    have hcs : ∀ x ∈ cs, isWs x = false := fun x hx => hw x (by simp [hx])
    have h1 := wordCountAux_nonws cs hcs (' ' :: l)
    have hsp : isWs ' ' = true := by decide
    simp [wordCountAux, hc, h1, hsp]

theorem wordCount_repChars (w : List Char) (hne : w ≠ [])
    (hw : ∀ c ∈ w, isWs c = false) :
    ∀ (n : Nat) (l : List Char),
      wordCountAux false (repChars (w ++ [' ']) n ++ l) = n + wordCountAux false l := by
  intro n
  induction n with
  | zero => intro l; simp [repChars]
  | succ n ih =>
    intro l
    have : repChars (w ++ [' ']) (n + 1) ++ l
        = w ++ ' ' :: (repChars (w ++ [' ']) n ++ l) := by
      simp [repChars]
    rw [this, wordCountAux_word_space w hne hw, ih l]
    omega

theorem wordCount_tocText400 : wordCount tocText400 = 400 := by
  have h1 : "chapter ".data = "chapter".data ++ [' '] := by decide
  have h2 : "w ".data = ['w'] ++ [' '] := by decide
  show wordCountAux false (repChars "chapter ".data 50 ++ repChars "w ".data 350) = 400
  rw [h1, h2, show repChars (['w'] ++ [' ']) 350
      = repChars (['w'] ++ [' ']) 350 ++ [] from (List.append_nil _).symm]
  rw [wordCount_repChars "chapter".data (by decide) (by decide),
    wordCount_repChars ['w'] (by decide) (by decide)]
  rfl

theorem wordCount_tocText4000 : wordCount tocText4000 = 4000 := by
  have h1 : "chapter ".data = "chapter".data ++ [' '] := by decide
  have h2 : "w ".data = ['w'] ++ [' '] := by decide
  show wordCountAux false (repChars "chapter ".data 50 ++ repChars "w ".data 3950) = 4000
  rw [h1, h2, show repChars (['w'] ++ [' ']) 3950
      = repChars (['w'] ++ [' ']) 3950 ++ [] from (List.append_nil _).symm]
  rw [wordCount_repChars "chapter".data (by decide) (by decide),
    wordCount_repChars ['w'] (by decide) (by decide)]
  rfl

theorem countScan_chapter_chunk (l : List Char) :
    countScan "chapter".data 0 ("chapter ".data ++ l)
      = 1 + countScan "chapter".data 0 l := rfl

theorem countScan_w_chunk (l : List Char) :
    countScan "chapter".data 0 ("w ".data ++ l)
      = countScan "chapter".data 0 l := rfl

theorem count_repChapter : ∀ (n : Nat) (l : List Char),
    countScan "chapter".data 0 (repChars "chapter ".data n ++ l)
      = n + countScan "chapter".data 0 l := by
  intro n
  induction n with
  | zero => intro l; simp [repChars]
  | succ n ih =>
    intro l
    have : repChars "chapter ".data (n + 1) ++ l
        = "chapter ".data ++ (repChars "chapter ".data n ++ l) := by
      simp [repChars]
    rw [this, countScan_chapter_chunk, ih l]
    omega

theorem count_repW : ∀ (n : Nat) (l : List Char),
    countScan "chapter".data 0 (repChars "w ".data n ++ l)
      = countScan "chapter".data 0 l := by
  intro n
  induction n with
  | zero => intro l; simp [repChars]
  | succ n ih =>
    intro l
    have : repChars "w ".data (n + 1) ++ l
        = "w ".data ++ (repChars "w ".data n ++ l) := by
      simp [repChars]
    rw [this, countScan_w_chunk, ih l]

theorem map_repChars (f : Char → Char) (w : List Char) :
    ∀ n, List.map f (repChars w n) = repChars (List.map f w) n := by
  intro n
  induction n with
  | zero => rfl
  | succ n ih => simp [repChars, ih]

theorem countSubstr_tocText400 :
    countSubstr (pyLower tocText400) "chapter" = 50 := by
  show countScan "chapter".data 0 (List.map Char.toLower
    (repChars "chapter ".data 50 ++ repChars "w ".data 350)) = 50
  rw [List.map_append, map_repChars, map_repChars,
    show List.map Char.toLower "chapter ".data = "chapter ".data from by decide,
    show List.map Char.toLower "w ".data = "w ".data from by decide,
    show repChars "w ".data 350 = repChars "w ".data 350 ++ [] from
      (List.append_nil _).symm,
    count_repChapter, count_repW]
  rfl

theorem countSubstr_tocText4000 :
    countSubstr (pyLower tocText4000) "chapter" = 50 := by
  show countScan "chapter".data 0 (List.map Char.toLower
    (repChars "chapter ".data 50 ++ repChars "w ".data 3950)) = 50
  rw [List.map_append, map_repChars, map_repChars,
    show List.map Char.toLower "chapter ".data = "chapter ".data from by decide,
    show List.map Char.toLower "w ".data = "w ".data from by decide,
    show repChars "w ".data 3950 = repChars "w ".data 3950 ++ [] from
      (List.append_nil _).symm,
    count_repChapter, count_repW]
  rfl

theorem wordCountAux_zero_allWs : ∀ l, wordCountAux false l = 0 →
    ∀ c ∈ l, isWs c = true := by
  intro l
  induction l with
  | nil => intro _ c hc; cases hc
  | cons c cs ih =>
    intro h0 x hx
    by_cases hws : isWs c = true
    · rw [show wordCountAux false (c :: cs) = wordCountAux false cs from by
        simp [wordCountAux, hws]] at h0
      rcases List.mem_cons.mp hx with hx | hx
      · rw [hx]; exact hws
      · exact ih h0 x hx
    · rw [show wordCountAux false (c :: cs) = 1 + wordCountAux true cs from by
        simp [wordCountAux, hws]] at h0
      exact absurd h0 (by omega)

theorem count_chapter_allWs : ∀ l, (∀ c ∈ l, isWs c = true) →
    ∀ s, countScan "chapter".data s l = 0 := by
  intro l
  induction l with
  | nil => intro _ s; cases s <;> rfl
  | cons c cs ih =>
    intro h s
    have hc : isWs c = true := h c (by simp)
    have hcs : ∀ x ∈ cs, isWs x = true := fun x hx => h x (by simp [hx])
    cases s with
    | succ s => simp [countScan, ih hcs s]
    | zero =>
      have hcne : ¬ ('c' = c) := by
        intro he
        rw [← he] at hc
        simp [isWs] at hc
      have hns : startsWithChars "chapter".data (c :: cs) = false := by
        simp [show "chapter".data = 'c' :: "hapter".data from by decide,
          startsWithChars, hcne]
      simp [countScan, hns, ih hcs 0]

theorem isWs_toLower (c : Char) (h : isWs c = true) : Char.toLower c = c := by
  simp only [isWs, Bool.or_eq_true, decide_eq_true_eq] at h
  rcases h with ((((h | h) | h) | h) | h) | h <;> rw [h] <;> decide

theorem tocDensityReject_iff (text : String) :
    tocDensityReject text = true ↔
      (12 < countSubstr (pyLower text) "chapter"
        ∧ wordCount text < 50 * countSubstr (pyLower text) "chapter") := by
  simp only [tocDensityReject, Bool.and_eq_true, decide_eq_true_eq]
  constructor
  · rintro ⟨⟨_, h12⟩, hd⟩
    exact ⟨h12, hd⟩
  · rintro ⟨h12, hd⟩
    refine ⟨⟨?_, h12⟩, hd⟩
    by_contra h0
    have hz : wordCountAux false text.data = 0 := by
      have : wordCount text = 0 := by omega
      exact this
    have hws := wordCountAux_zero_allWs text.data hz
    have hlow : ∀ c ∈ (pyLower text).data, isWs c = true := by
      intro c hc
      simp only [pyLower, List.mem_map] at hc
      obtain ⟨d, hdmem, rfl⟩ := hc
      rw [isWs_toLower d (hws d hdmem)]
      exact hws d hdmem
    have hcz : countScan "chapter".data 0 (pyLower text).data = 0 :=
      count_chapter_allWs (pyLower text).data hlow 0
    have : countSubstr (pyLower text) "chapter" = 0 := hcz
    omega

/-- C3: the TOC-density rule fires exactly when the occurrence count of
`chapter` in the lowercased text exceeds 12 AND the count-to-words ratio
exceeds 2% (`words < 50 * count`); when it fires on a document that passed
the filename and size checks, the classifier rejects; in particular 50
occurrences among 400 words are rejected by this rule while the same 50
among 4000 words are not. -/
theorem C3_toc_density_rule :
    (∀ text : String, tocDensityReject text = true ↔
       (12 < countSubstr (pyLower text) "chapter"
         ∧ wordCount text < 50 * countSubstr (pyLower text) "chapter"))
    ∧ (∀ (fn : String) (len : Nat) (t : String),
        excludedByName fn = false → ¬ len < 300 → ¬ pyLen (pyStrip t) < 200 →
        tocDensityReject (pyStrip t) = true →
        is_chapter_content ⟨fn, len, some t⟩ = false)
    ∧ tocDensityReject tocText400 = true
    ∧ tocDensityReject tocText4000 = false := by
  refine ⟨tocDensityReject_iff, ?_, ?_, ?_⟩
  · intro fn len t hx hlen h200 hrej
    simp only [is_chapter_content, hx, Bool.false_eq_true, if_false, hlen,
      analyzeText, h200, hrej, if_true, ite_true, ite_false, if_false]
  · rw [tocDensityReject_iff, countSubstr_tocText400, wordCount_tocText400]
    omega
  · cases htoc : tocDensityReject tocText4000 with
    | false => rfl
    | true =>
      have h := (tocDensityReject_iff tocText4000).mp htoc
      rw [countSubstr_tocText4000, wordCount_tocText4000] at h
      omega

/-- Witness for C3: the classifier rejects the 400-word TOC-like document. -/
theorem C3_witness :
    is_chapter_content ⟨"chx.xhtml", 700, some tocText400⟩ = false :=
  C3_toc_density_rule.2.1 "chx.xhtml" 700 tocText400 (by decide!) (by decide!)
    (by decide!) (by decide!)

/-- C4 fails as stated: the four-character paragraph `Yes.` ends in sentence
punctuation, yet both extraction sites of epub_parser.py drop it — the
under-threshold drop has no punctuation exception. -/
theorem C4_counterexample :
    ("Yes." ∉ (extract_chapter_content_with_images [] [pNode "Yes."]).1)
    ∧ (extract_chapter_content_with_images [] [pNode "Yes."]).1 = []
    ∧ collectH2Content [pNode "Yes."] = [] := by
  refine ⟨?_, ?_, ?_⟩ <;> decide!

theorem string_ne_empty_of_len {s : String} (h : 10 < pyLen s) : s ≠ "" := by
  intro he
  rw [he] at h
  exact absurd h (by decide)

/-- C4 amended: a paragraph candidate is kept exactly when its stripped text
is longer than 10 characters; sentence-ending punctuation grants no
exception.  Stated for the paragraph filters of both extraction sites
(`pTextH2` for the h2 sibling walk, `pTextImg` for
`extract_chapter_content_with_images`) and for the whole extractor on a
one-paragraph document. -/
theorem C4_short_paragraphs_dropped :
    (∀ raw : String,
       pTextH2 raw = if 10 < pyLen (pyStrip raw)
         then some (normalizeWs (pyStrip raw)) else none)
    ∧ (∀ raw : String,
       pTextImg raw = if 10 < pyLen (pyStrip raw)
         then some (pyStrip (pyReplace (normalizeWs (pyStrip raw)) "\n" " "))
         else none)
    ∧ (∀ (imgs : List ImageRecord) (s : String),
       (extract_chapter_content_with_images imgs [pNode s]).1
         = if 10 < pyLen (pyStrip s)
           then [pyStrip (pyReplace (normalizeWs (pyStrip s)) "\n" " ")] else []) := by
  have hH2 : ∀ raw : String,
      pTextH2 raw = if 10 < pyLen (pyStrip raw)
        then some (normalizeWs (pyStrip raw)) else none := by
    intro raw
    by_cases h : 10 < pyLen (pyStrip raw)
    · simp [pTextH2, h, string_ne_empty_of_len h]
    · simp [pTextH2, h]
  have hImg : ∀ raw : String,
      pTextImg raw = if 10 < pyLen (pyStrip raw)
        then some (pyStrip (pyReplace (normalizeWs (pyStrip raw)) "\n" " "))
        else none := by
    intro raw
    by_cases h : 10 < pyLen (pyStrip raw)
    · simp [pTextImg, h, string_ne_empty_of_len h]
    · simp [pTextImg, h]
  refine ⟨hH2, hImg, ?_⟩
  intro imgs s
  have happ : s ++ "" = s := by
    cases s with
    | mk d => exact congrArg String.mk (List.append_nil d)
  have hval : extract_chapter_content_with_images imgs [pNode s]
      = (match pTextImg (s ++ "") with
         | some t => ([t], ([] : List String))
         | none => ([], [])) := rfl
  rw [hval, happ, hImg s]
  by_cases h : 10 < pyLen (pyStrip s)
  · simp [h]
  · simp [h]

/-- C7: an explicit line-break node flushes the accumulated buffer into a
finished paragraph (joined, stripped, dropped when empty — `flushBuf`)
without recursing into the `br` node (its attributes and children are
ignored), and the bare fragment `Line one<br/>Line two` with no enclosing
paragraph tag yields exactly the two paragraphs `Line one` and `Line two`. -/
theorem C7_br_flushes_buffer :
    (∀ (attrs : List (String × String)) (cs rest : List Node) (buf : List String),
       processKids (.tag "br" attrs cs :: rest) buf
         = flushBuf buf ++ processKids rest [])
    ∧ extract_content_from_soup breakDoc = ["Line one", "Line two"] := by
  constructor
  · intro attrs cs rest buf
    rfl
  · decide!

/-! Inline-merge lemmas for C6. -/

theorem processKids_inline (cs : List Node) (hin : ∀ c ∈ cs, isInlineChild c = true) :
    ∀ buf, processKids cs buf = flushBuf (buf ++ cs.filterMap inlinePiece) := by
  induction cs with
  | nil => intro buf; simp [processKids]
  | cons c rest ih =>
    intro buf
    have hc : isInlineChild c = true := hin c (by simp)
    have hrest : ∀ x ∈ rest, isInlineChild x = true := fun x hx => hin x (by simp [hx])
    cases c with
    | comment s => simp [processKids, inlinePiece, List.filterMap_cons, ih hrest buf]
    | text s =>
      by_cases hs : pyStripNR s = ""
      · simp [processKids, hs, inlinePiece, List.filterMap_cons, ih hrest buf]
      · simp only [processKids, hs, if_neg, ite_false]
        rw [ih hrest (buf ++ [pyStripNR s])]
        simp [inlinePiece, hs, List.filterMap_cons]
    | tag t a tcs =>
      simp only [isInlineChild, Bool.and_eq_true, Bool.not_eq_true'] at hc
      obtain ⟨hbr, hblk⟩ := hc
      have hbrp : ¬ t = "br" := of_decide_eq_false hbr
      simp only [processKids, hbrp, hblk, Bool.false_eq_true, if_false, ite_false]
      rw [ih hrest (buf ++ [getText (.tag t a tcs)])]
      simp [inlinePiece, List.filterMap_cons]

/-- C6: inline nodes (emphasis, links, spans) interleaved with plain text
inside one node do not split paragraphs — every tag whose children are all
inline-level merges into at most one paragraph, the whitespace-collapsed
join of the children's text — and `<p>This is <em>bold</em> text.</p>`
yields exactly `["This is bold text."]` under both content extractors. -/
theorem C6_inline_runs_merge :
    (∀ (name : String) (attrs : List (String × String)) (cs : List Node),
       (∀ c ∈ cs, isInlineChild c = true) →
       processElement (.tag name attrs cs) = flushBuf (cs.filterMap inlinePiece)
       ∧ (processElement (.tag name attrs cs)).length ≤ 1)
    ∧ extract_content_from_soup mergeDoc = ["This is bold text."]
    ∧ (extract_chapter_content_with_images [] mergeDoc).1 = ["This is bold text."] := by
  refine ⟨?_, by decide!, by decide!⟩
  intro name attrs cs hin
  have h1 : processElement (.tag name attrs cs) = flushBuf (cs.filterMap inlinePiece) := by
    show processKids cs [] = _
    rw [processKids_inline cs hin []]
    rfl
  refine ⟨h1, ?_⟩
  rw [h1]
  unfold flushBuf
  by_cases h : pyStrip (String.join (cs.filterMap inlinePiece)) = ""
  · simp [h]
  · simp [h]

/-- Witness for C6 at the example paragraph node. -/
theorem C6_witness :
    processElement (.tag "p" [] [.text "This is ", .tag "em" [] [.text "bold"],
        .text " text."])
      = flushBuf ([Node.text "This is ", Node.tag "em" [] [Node.text "bold"],
          Node.text " text."].filterMap inlinePiece)
    ∧ (processElement (.tag "p" [] [.text "This is ", .tag "em" [] [.text "bold"],
        .text " text."])).length ≤ 1 :=
  C6_inline_runs_merge.1 "p" []
    [Node.text "This is ", Node.tag "em" [] [Node.text "bold"], Node.text " text."]
    (by decide)

/-! Heading-phase characterization for C5. -/

theorem headingPhaseAux_spec :
    ∀ (tags : List String) (doc : List Node) (t : String),
      headingPhaseAux tags doc = some t →
      ∃ tg ∈ tags, ∃ h, findTag tg doc = some h ∧
        2 < pyLen (pyStrip (getText h)) ∧
        title_stopwords.contains (pyLower (pyStrip (getText h))) = false ∧
        t = pyTake 200 (normTitle (pyStrip (getText h))) := by
  intro tags
  induction tags with
  | nil => intro doc t h; simp [headingPhaseAux] at h
  | cons tg rest ih =>
    intro doc t h
    rw [headingPhaseAux] at h
    split at h
    next hd heq =>
      dsimp only at h
      split at h
      next hcond =>
        simp only [Bool.and_eq_true, decide_eq_true_eq, Bool.not_eq_true'] at hcond
        obtain ⟨h2, hsw⟩ := hcond
        exact ⟨tg, List.mem_cons_self tg rest, hd, heq, h2, hsw,
          (Option.some.inj h).symm⟩
      next hcond =>
        obtain ⟨tg2, htg2, hd2, hrest⟩ := ih doc t h
        exact ⟨tg2, List.mem_cons_of_mem tg htg2, hd2, hrest⟩
    next heq =>
      obtain ⟨tg2, htg2, hd2, hrest⟩ := ih doc t h
      exact ⟨tg2, List.mem_cons_of_mem tg htg2, hd2, hrest⟩

/-- C5: when the heading phase finds a heading (first of level h1..h4, in the
extractor's search order) whose stripped text is longer than 2 characters
and is not a stop-word, `extract_chapter_title` returns that heading's text
with a leading `Chapter <n> -` / `Chapter <n>:` separator normalized to
`Chapter <n>: ` (`normTitle`) and truncated to at most 200 characters,
regardless of the later fallback strategies; in particular a level-1 heading
`Chapter 7 - The Storm` yields exactly `Chapter 7: The Storm`. -/
theorem C5_heading_title_rule :
    (∀ (fb : List Node → String) (doc : List Node) (t : String),
       headingPhase doc = some t →
       extract_chapter_title fb doc = t ∧ pyLen t ≤ 200 ∧
       ∃ tg ∈ (["h1", "h2", "h3", "h4"] : List String), ∃ h,
         findTag tg doc = some h ∧
         2 < pyLen (pyStrip (getText h)) ∧
         title_stopwords.contains (pyLower (pyStrip (getText h))) = false ∧
         t = pyTake 200 (normTitle (pyStrip (getText h))))
    ∧ (∀ fb : List Node → String,
        extract_chapter_title fb stormDoc = "Chapter 7: The Storm") := by
  constructor
  · intro fb doc t ht
    obtain ⟨tg, htg, hd, hf, h2, hsw, hteq⟩ := headingPhaseAux_spec _ doc t ht
    refine ⟨?_, ?_, tg, htg, hd, hf, h2, hsw, hteq⟩
    · rw [extract_chapter_title, ht]
    · rw [hteq]
      show (List.take 200 _).length ≤ 200
      rw [List.length_take]
      omega
  · intro fb
    rw [extract_chapter_title,
      show headingPhase stormDoc = some "Chapter 7: The Storm" from by decide!]

/-- Witness for C5 at the concrete heading document. -/
theorem C5_witness :
    extract_chapter_title (fun _ => "ZZZ") stormDoc = "Chapter 7: The Storm"
    ∧ pyLen "Chapter 7: The Storm" ≤ 200 := by
  have h := C5_heading_title_rule.1 (fun _ => "ZZZ") stormDoc "Chapter 7: The Storm"
    (by decide!)
  exact ⟨h.1, h.2.1⟩

/-! Document-order lemmas for C10. -/

/-- Every pair produced by `h2Splits` is an h2, and the flattened document
splits around it: the h2, then its own subtree, then the flattening of its
following siblings (`k` bounds the tree size for the induction). -/
theorem h2Splits_structure_bounded : ∀ (k : Nat) (l : List Node) (hs : Node × List Node),
    sizeOf l ≤ k → hs ∈ h2Splits l → isH2 hs.1 = true ∧
      ∃ A B, flat l = A ++ hs.1 :: (flat (childrenOf hs.1) ++ flat hs.2 ++ B) := by
  intro k
  induction k with
  | zero =>
    intro l hs hsz hmem
    exact absurd hsz (by cases l <;> simp)
  | succ k ih =>
    intro l hs hsz hmem
    cases l with
    | nil => simp [h2Splits] at hmem
    | cons n rest =>
      rw [h2Splits] at hmem
      rcases List.mem_append.mp hmem with hn | hr
      · cases n with
        | text s => simp [h2SplitsNode] at hn
        | comment s => simp [h2SplitsNode] at hn
        | tag t a cs =>
          rw [h2SplitsNode] at hn
          rcases List.mem_append.mp hn with hhead | hcs
          · by_cases ht : t = "h2"
            · rw [if_pos ht] at hhead
              have heq : hs = (Node.tag t a cs, rest) := List.mem_singleton.mp hhead
              subst heq
              refine ⟨by simp [isH2, tagName, ht], [], [], ?_⟩
              show flatOne (Node.tag t a cs) ++ flat rest = _
              simp [flatOne, childrenOf, List.append_assoc]
            · rw [if_neg ht] at hhead
              cases hhead
          · have hszcs : sizeOf cs ≤ k := by
              simp only [List.cons.sizeOf_spec, Node.tag.sizeOf_spec] at hsz
              omega
            obtain ⟨hh2, A, B, hfl⟩ := ih cs hs hszcs hcs
            refine ⟨hh2, Node.tag t a cs :: A, B ++ flat rest, ?_⟩
            show flatOne (Node.tag t a cs) ++ flat rest = _
            rw [show flatOne (Node.tag t a cs) = Node.tag t a cs :: flat cs from rfl, hfl]
            simp [List.append_assoc]
      · have hszr : sizeOf rest ≤ k := by
          cases n <;> simp only [List.cons.sizeOf_spec, Node.text.sizeOf_spec,
            Node.comment.sizeOf_spec, Node.tag.sizeOf_spec] at hsz <;> omega
        obtain ⟨hh2, A, B, hfl⟩ := ih rest hs hszr hr
        refine ⟨hh2, flatOne n ++ A, B, ?_⟩
        show flatOne n ++ flat rest = _
        rw [hfl]
        simp [List.append_assoc]

theorem h2Splits_structure (l : List Node) (hs : Node × List Node)
    (hmem : hs ∈ h2Splits l) : isH2 hs.1 = true ∧
      ∃ A B, flat l = A ++ hs.1 :: (flat (childrenOf hs.1) ++ flat hs.2 ++ B) :=
  h2Splits_structure_bounded (sizeOf l) l hs (Nat.le_refl _) hmem

/-- Every node `find_all(name)` returns carries that tag name and lies in the
flattened subtree. -/
theorem findAllTag_mem_bounded : ∀ (k : Nat) (l : List Node) (nm : String) (p : Node),
    sizeOf l ≤ k → p ∈ findAllTag nm l → tagName p = some nm ∧ p ∈ flat l := by
  intro k
  induction k with
  | zero =>
    intro l nm p hsz hmem
    exact absurd hsz (by cases l <;> simp)
  | succ k ih =>
    intro l nm p hsz hmem
    cases l with
    | nil => simp [findAllTag] at hmem
    | cons n rest =>
      rw [findAllTag] at hmem
      have hflat : flat (n :: rest) = flatOne n ++ flat rest := rfl
      rcases List.mem_append.mp hmem with hn | hr
      · cases n with
        | text s => simp [findAllTagNode] at hn
        | comment s => simp [findAllTagNode] at hn
        | tag t a cs =>
          rw [findAllTagNode] at hn
          rcases List.mem_append.mp hn with hhead | hcs
          · by_cases ht : t = nm
            · rw [if_pos ht] at hhead
              have heq : p = Node.tag t a cs := List.mem_singleton.mp hhead
              refine ⟨by rw [heq]; simp [tagName, ht], ?_⟩
              rw [heq, hflat]
              simp [flatOne]
            · rw [if_neg ht] at hhead
              cases hhead
          · have hszcs : sizeOf cs ≤ k := by
              simp only [List.cons.sizeOf_spec, Node.tag.sizeOf_spec] at hsz
              omega
            obtain ⟨htag, hmem2⟩ := ih cs nm p hszcs hcs
            refine ⟨htag, ?_⟩
            rw [hflat]
            simp [flatOne, List.mem_append, hmem2]
      · have hszr : sizeOf rest ≤ k := by
          cases n <;> simp only [List.cons.sizeOf_spec, Node.text.sizeOf_spec,
            Node.comment.sizeOf_spec, Node.tag.sizeOf_spec] at hsz <;> omega
        obtain ⟨htag, hmem2⟩ := ih rest nm p hszr hr
        refine ⟨htag, ?_⟩
        rw [hflat]
        simp [List.mem_append, hmem2]

theorem findAllTag_mem (l : List Node) (nm : String) (p : Node)
    (hmem : p ∈ findAllTag nm l) : tagName p = some nm ∧ p ∈ flat l :=
  findAllTag_mem_bounded (sizeOf l) l nm p (Nat.le_refl _) hmem

/-- Every string the h2 sibling walk collects is the filtered text of some
`p` node inside the flattened sibling list. -/
theorem collectH2Content_mem : ∀ (sibs : List Node) (s : String),
    s ∈ collectH2Content sibs →
    ∃ p ∈ flat sibs, isPtag p = true ∧ pTextH2 (getText p) = some s := by
  intro sibs
  induction sibs with
  | nil => intro s hs; simp [collectH2Content] at hs
  | cons n rest ih =>
    intro s hs
    have hrest : ∀ x, x ∈ collectH2Content rest →
        (∃ p ∈ flat rest, isPtag p = true ∧ pTextH2 (getText p) = some x) := ih
    have hflat : flat (n :: rest) = flatOne n ++ flat rest := rfl
    cases n with
    | text str =>
      obtain ⟨p, hp, hrest2⟩ := hrest s hs
      exact ⟨p, by simp [hflat, flatOne, List.mem_append, hp], hrest2⟩
    | comment str =>
      obtain ⟨p, hp, hrest2⟩ := hrest s hs
      exact ⟨p, by simp [hflat, flatOne, List.mem_append, hp], hrest2⟩
    | tag t a cs =>
      rw [collectH2Content] at hs
      by_cases ht2 : t = "h2"
      · rw [if_pos ht2] at hs
        cases hs
      · rw [if_neg ht2] at hs
        by_cases htp : t = "p"
        · rw [if_pos htp] at hs
          rcases List.mem_append.mp hs with hhd | htl
          · cases hpt : pTextH2 (getText (Node.tag t a cs)) with
            | none => rw [hpt] at hhd; cases hhd
            | some v =>
              rw [hpt] at hhd
              have hv : s = v := List.mem_singleton.mp hhd
              subst hv
              exact ⟨Node.tag t a cs, by simp [hflat, flatOne],
                by simp [isPtag, tagName, htp], hpt⟩
          · obtain ⟨p, hp, hrest2⟩ := hrest s htl
            exact ⟨p, by simp [hflat, flatOne, List.mem_append, hp], hrest2⟩
        · rw [if_neg htp] at hs
          by_cases hdiv : divLike.contains t = true
          · rw [if_pos hdiv] at hs
            rcases List.mem_append.mp hs with hhd | htl
            · obtain ⟨p, hpmem, hps⟩ := List.mem_filterMap.mp hhd
              obtain ⟨htag, hmem2⟩ := findAllTag_mem cs "p" p hpmem
              exact ⟨p, by simp [hflat, flatOne, List.mem_append, hmem2],
                by simp [isPtag, htag], hps⟩
            · obtain ⟨p, hp, hrest2⟩ := hrest s htl
              exact ⟨p, by simp [hflat, flatOne, List.mem_append, hp], hrest2⟩
          · rw [if_neg hdiv] at hs
            obtain ⟨p, hp, hrest2⟩ := hrest s hs
            exact ⟨p, by simp [hflat, flatOne, List.mem_append, hp], hrest2⟩

/-- An element of the tail is in the `dropWhile` suffix as soon as some
earlier element already fails the predicate. -/
theorem mem_dropWhile_append {α : Type} (pred : α → Bool) :
    ∀ (xs : List α) (h : α) (ys : List α) (x : α),
      x ∈ ys → pred h = false → x ∈ List.dropWhile pred (xs ++ h :: ys) := by
  intro xs
  induction xs with
  | nil =>
    intro h ys x hx hp
    simp only [List.nil_append, List.dropWhile_cons, hp, Bool.false_eq_true, if_false]
    exact List.mem_cons_of_mem h hx
  | cons a as ih =>
    intro h ys x hx hp
    simp only [List.cons_append, List.dropWhile_cons]
    by_cases ha : pred a = true
    · simp only [ha, if_true, ite_true]
      exact ih h ys x hx hp
    · simp only [ha, Bool.false_eq_true, if_false, ite_false]
      have : x ∈ as ++ h :: ys := List.mem_append.mpr (Or.inr (List.mem_cons_of_mem h hx))
      exact List.mem_cons_of_mem a this

/-- The sibling walk agrees with its takeWhile description: collect from the
tag siblings up to the first sibling h2. -/
theorem collectH2Content_eq_walkSpec : ∀ sibs, collectH2Content sibs = walkSpec sibs := by
  intro sibs
  induction sibs with
  | nil => rfl
  | cons n rest ih =>
    cases n with
    | text s => simp [collectH2Content, walkSpec, tagsOnly, tagName] at ih ⊢; exact ih
    | comment s => simp [collectH2Content, walkSpec, tagsOnly, tagName] at ih ⊢; exact ih
    | tag t a cs =>
      by_cases ht2 : t = "h2"
      · subst ht2
        simp [collectH2Content, walkSpec, tagsOnly, tagName, isH2]
      · by_cases htp : t = "p"
        · subst htp
          simp only [collectH2Content, walkSpec, tagsOnly, tagName, isH2] at ih ⊢
          simp only [if_neg ht2]
          simp [List.filter_cons, List.takeWhile_cons, isH2, tagName, ht2, ih,
            walkSpec, tagsOnly]
          cases pTextH2 (getText (Node.tag "p" a cs)) <;> simp [Option.toList]
        · by_cases hdiv : divLike.contains t = true
          · have hdm : t ∈ divLike := by simpa using hdiv
            simp only [collectH2Content, if_neg ht2, if_neg htp, hdiv, if_true, ite_true]
            simp [walkSpec, tagsOnly, List.filter_cons, tagName, List.takeWhile_cons,
              isH2, ht2, hdiv, hdm, htp, ih, childrenOf]
          · have hdm : t ∉ divLike := by simpa using hdiv
            simp only [collectH2Content, if_neg ht2, if_neg htp, hdiv,
              Bool.false_eq_true, if_false, ite_false]
            simp [walkSpec, tagsOnly, List.filter_cons, tagName, List.takeWhile_cons,
              isH2, ht2, hdiv, hdm, htp, ih]

theorem h2Candidates_mem (d : List Node) (tc : String × List String)
    (h : tc ∈ h2Candidates d) :
    ∃ hs ∈ h2Splits d, tc.1 = pyStrip (getText hs.1) ∧ tc.1 ≠ "" ∧
      tc.2 = collectH2Content hs.2 ∧ tc.2 ≠ [] := by
  obtain ⟨hs, hmem, heq⟩ := List.mem_filterMap.mp h
  refine ⟨hs, hmem, ?_⟩
  dsimp only at heq
  split at heq
  · cases heq
  next hne =>
    split at heq
    · cases heq
    next hne2 =>
      have heq2 : (pyStrip (getText hs.1), collectH2Content hs.2) = tc :=
        Option.some.inj heq
      rw [← heq2]
      exact ⟨rfl, hne, rfl, hne2⟩

/-- C10 amended: in `parse_epub_content`, for a document that contains at
least one h2, each emitted chapter takes one h2's non-empty stripped text as
its title, its content is exactly the filtered text of the `p` elements among
that h2's following tag siblings up to the next SIBLING h2 (directly, or
nested inside `div`/`blockquote`/`section` siblings — an h2 nested inside
such a container does not terminate the walk), and every content string is
the text of a `p` located, in document order, at or after the first h2 —
nothing before the first h2 is ever included. -/
theorem C10_h2_split_per_sibling :
    ∀ (d : List Node), ∀ tc ∈ h2Candidates d,
      ∃ hs ∈ h2Splits d,
        isH2 hs.1 = true ∧
        tc.1 = pyStrip (getText hs.1) ∧ tc.1 ≠ "" ∧
        tc.2 = walkSpec hs.2 ∧ tc.2 ≠ [] ∧
        ∀ s ∈ tc.2, s ∈ pTextsFromFirstH2 d := by
  intro d tc htc
  obtain ⟨hs, hmem, ht1, hne, ht2, hne2⟩ := h2Candidates_mem d tc htc
  obtain ⟨hh2, A, B, hfl⟩ := h2Splits_structure d hs hmem
  refine ⟨hs, hmem, hh2, ht1, hne, ?_, hne2, ?_⟩
  · rw [ht2, collectH2Content_eq_walkSpec]
  · intro s hsmem
    rw [ht2] at hsmem
    obtain ⟨p, hpmem, hptag, hptext⟩ := collectH2Content_mem hs.2 s hsmem
    unfold pTextsFromFirstH2
    refine List.mem_filterMap.mpr ⟨p, List.mem_filter.mpr ⟨?_, hptag⟩, hptext⟩
    rw [hfl]
    exact mem_dropWhile_append (fun n => !isH2 n) A hs.1
      (flat (childrenOf hs.1) ++ flat hs.2 ++ B) p
      (List.mem_append.mpr (Or.inl (List.mem_append.mpr (Or.inr hpmem))))
      (by simp [hh2])

/-- C10 fails as stated: on the accepted document `nestedH2Doc`, whose second
h2 (`Beta`) is nested inside a `div` sibling, `parse_epub_content` emits one
chapter titled `Alpha` that contains the text of the paragraph located AFTER
`Beta` in document order — the sibling walk stops only at sibling h2s, so no
chapter satisfies the "strictly between this h2 and the next h2" bound that
the claim states (`claimC10At` is that bound, evaluated positionally on the
flattened document). -/
theorem C10_counterexample :
    (parse_epub_content (fun _ => "") (fun _ => "") nestedH2Epub).2.1
      = [{ chapterNumber := 1
           chapterTitle := "Alpha"
           content := ["This paragraph zero is long.", "This paragraph one is long."]
           images := [] }]
    ∧ claimC10At nestedH2Dec
        [("Alpha", ["This paragraph zero is long.", "This paragraph one is long."])]
        = false := by
  constructor <;> decide!

/-- Witness for the amended C10: the leaked paragraph still lies at or after
the first h2 in document order. -/
theorem C10_witness :
    "This paragraph one is long." ∈ pTextsFromFirstH2 nestedH2Dec := by
  obtain ⟨hs, hmem, hh2, ht, hne, hwalk, hne2, hall⟩ :=
    C10_h2_split_per_sibling nestedH2Dec
      ("Alpha", ["This paragraph zero is long.", "This paragraph one is long."])
      (by decide!)
  exact hall _ (by decide)

end EpubParser



